import Mathlib

/-!
Verification of the wloverview window-switcher core against its specification.

The development shallowly embeds the pure cores of the two program variants,
`src/wlroverview.py` and `src/wloverview.py`:

* the title normalizer `normalize_title`,
* the window enumerator `get_windows` (its text-parsing part; the external
  `wlrctl` process is modelled by the list of output lines it produced),
* the focus cascade `_wlrctl_focus_try` / `focus_window` (fire-and-forget
  subprocess invocations are modelled by the list of issued argument vectors,
  in order),
* the dock reconciler of `build_dock` (running-state computation and the
  click dispatch of `on_click`),
* the grid layout solver inside `MainWindow.populate`.

Python `float` arithmetic in the layout solver is modelled by exact rational
arithmetic over `ℚ`; `int(x)` is modelled by truncation toward zero.  Python
strings are modelled by `String` / `List Char`; `None` by `Option`.  The one
piece of behaviour that lives outside the repository is Unicode NFKC
normalization (`unicodedata.normalize("NFKC", ·)`): definitions that need it
take it as an explicit function parameter, and a small fragment of it is
modelled from the spec where a concrete instance is required.
-/

/-! ### Python string primitives -/

/-- Python `str` truthiness of an optional string: `None` and `""` are falsy. -/
def truthyOpt : Option String → Bool
  | none => false
  | some s => !s.data.isEmpty

/-- The whitespace characters recognised by Python's `str.split()` /
`str.strip()` (Unicode whitespace). -/
def isPyWhitespace (c : Char) : Bool :=
  c = ' ' || c = '\t' || c = '\n' || c = '\r' || c = '\x0b' || c = '\x0c' ||
  (0x1c ≤ c.toNat && c.toNat ≤ 0x1f) || c.toNat = 0x85 || c.toNat = 0xa0 ||
  c.toNat = 0x1680 || (0x2000 ≤ c.toNat && c.toNat ≤ 0x200a) ||
  c.toNat = 0x2028 || c.toNat = 0x2029 || c.toNat = 0x202f ||
  c.toNat = 0x205f || c.toNat = 0x3000

/-- `s.split()` on a character list: maximal runs of non-whitespace
characters, in order; `cur` accumulates the current word reversed. -/
def wordsAux (cur : List Char) : List Char → List (List Char)
  | [] => if cur.isEmpty then [] else [cur.reverse]
  | c :: cs =>
    if isPyWhitespace c then
      if cur.isEmpty then wordsAux [] cs else cur.reverse :: wordsAux [] cs
    else
      wordsAux (c :: cur) cs

/-- Python `s.split()` (no separator): list of whitespace-delimited words. -/
def pyWords (l : List Char) : List (List Char) :=
  wordsAux [] l

/-- Python `" ".join(words)`: the words separated by single spaces. -/
def joinSpace : List (List Char) → List Char
  | [] => []
  | [w] => w
  | w :: ws => w ++ ' ' :: joinSpace ws

/-- Python `" ".join(s.split())`: collapse whitespace runs to single spaces
and trim the ends. -/
def collapseWs (l : List Char) : List Char :=
  joinSpace (pyWords l)

/-- The zero-width code points removed by `_ZERO_WIDTH_RE`
(`U+200B`-`U+200D` and `U+FEFF` in both sources). -/
def isZeroWidth (c : Char) : Bool :=
  (0x200b ≤ c.toNat && c.toNat ≤ 0x200d) || c.toNat = 0xfeff

/-- The dash-like code points of `_DASH_TRANSLATION` (both sources):
hyphen, non-breaking hyphen, figure dash, en dash, em dash, minus sign,
hyphen bullet. -/
def isDashVariant (c : Char) : Bool :=
  c = '\u2010' || c = '\u2011' || c = '\u2012' || c = '\u2013' ||
  c = '\u2014' || c = '\u2212' || c = '\u2043'

/-- `str.translate(_DASH_TRANSLATION)` on one character. -/
def translateChar (c : Char) : Char :=
  if isDashVariant c then '-' else c

/-- `normalize_title` of both sources, with the external
`unicodedata.normalize("NFKC", ·)` passed in as `nfkc`:
empty input short-circuits to `""`; otherwise NFKC, then strip zero-width
characters, then translate dashes, then collapse whitespace. -/
def normalize_title (nfkc : String → String) (s : String) : String :=
  if s = "" then s
  else
    String.mk (collapseWs (((nfkc s).data.filter (fun c => !isZeroWidth c)).map
      translateChar))

/-- Modelled from the spec: "Apply Unicode canonical composition (NFKC)".
The external `unicodedata` collaborator is not part of the repository; this
fragment implements canonical composition restricted to the single pair
U+0061 U+0301 → U+00E1 of UAX #15, including the rule that an intervening
character of combining class 0 (such as U+200D ZERO WIDTH JOINER) blocks
composition — the pair composes only when immediately adjacent.  All other
characters are left untouched, as NFKC leaves them (none of the characters
used in this development has a compatibility decomposition). -/
def composePairs : List Char → List Char
  | [] => []
  | 'a' :: '\u0301' :: rest => '\u00e1' :: composePairs rest
  | c :: rest => c :: composePairs rest

/-- The NFKC fragment lifted to strings. -/
def nfkcFragment (s : String) : String :=
  String.mk (composePairs s.data)

/-! ### Window enumeration (`get_windows`) -/

/-- Python `line.split(":", 1)`: the part before the first colon and the part
after it (the caller has already checked that a colon is present). -/
def splitAtFirstColon (l : List Char) : List Char × List Char :=
  (l.takeWhile (fun c => c ≠ ':'), (l.dropWhile (fun c => c ≠ ':')).tail)

/-- Python `s.strip()`: drop leading and trailing whitespace. -/
def pyStrip (l : List Char) : List Char :=
  ((l.dropWhile isPyWhitespace).reverse.dropWhile isPyWhitespace).reverse

/-- Python `s.lower()`, restricted to ASCII case mapping (all strings this
development lowers are ASCII; `Char.toLower` is the ASCII mapping). -/
def pyLower (s : String) : String :=
  String.mk (s.data.map Char.toLower)

/-- `get_windows` of `src/wlroverview.py`, applied to the lines produced by
`wlrctl toplevel list`: keep lines containing a colon, split at the first
colon, strip both parts, drop the overview's own windows — those whose appid
is `org.broomlabs.wloverview` *or* whose lowercased title is `wloverview` —
and emit `(appid, title, normalize_title title)`. -/
def get_windows_wlr (nfkc : String → String) (lines : List String) :
    List (String × String × String) :=
  lines.filterMap (fun line =>
    if line.data.contains ':' then
      let p := splitAtFirstColon line.data
      let appid := String.mk (pyStrip p.1)
      let title := String.mk (pyStrip p.2)
      if appid = "org.broomlabs.wloverview" || pyLower title = "wloverview" then
        none
      else
        some (appid, title, normalize_title nfkc title)
    else none)

/-- `get_windows` of `src/wloverview.py`: identical except that only the
`appid = org.broomlabs.wloverview` exclusion is applied. -/
def get_windows_wlo (nfkc : String → String) (lines : List String) :
    List (String × String × String) :=
  lines.filterMap (fun line =>
    if line.data.contains ':' then
      let p := splitAtFirstColon line.data
      let appid := String.mk (pyStrip p.1)
      let title := String.mk (pyStrip p.2)
      if appid = "org.broomlabs.wloverview" then
        none
      else
        some (appid, title, normalize_title nfkc title)
    else none)

/-! ### The focus cascade (`_wlrctl_focus_try` / `focus_window`) -/

/-- Python `title.replace("~", home, 1)`: replace the first tilde. -/
def replaceFirstTilde (home : List Char) : List Char → List Char
  | [] => []
  | c :: cs => if c = '~' then home ++ cs else c :: replaceFirstTilde home cs

/-- `expand_tilde_variants` of `src/wloverview.py`: a title containing no
tilde stands alone; otherwise the title and its home-expanded variant.
`home` is the value of `os.path.expanduser("~")`. -/
def expand_tilde_variants (home : String) (title : String) : List String :=
  if title.data.contains '~' then
    [title, String.mk (replaceFirstTilde home.data title.data)]
  else
    [title]

/-- A keyed match attempt `wlrctl toplevel focus key:appid title:t`. -/
def cmdKeyTitle (k appid t : String) : List String :=
  ["wlrctl", "toplevel", "focus", k ++ ":" ++ appid, "title:" ++ t]

/-- A title-only match attempt `wlrctl toplevel focus title:t`. -/
def cmdTitle (t : String) : List String :=
  ["wlrctl", "toplevel", "focus", "title:" ++ t]

/-- A key-only match attempt `wlrctl toplevel focus key:appid`. -/
def cmdKey (k appid : String) : List String :=
  ["wlrctl", "toplevel", "focus", k ++ ":" ++ appid]

/-- `_wlrctl_focus_try` of `src/wloverview.py`: the list of issued
`wlrctl` invocations, in order.  For truthy `appid` and `title`, both key
spellings with each tilde variant of the title; then for truthy `title` a
title-only attempt; then for truthy `appid` both key-only attempts.  Every
command in the list is run unconditionally (fire and forget). -/
def wlrctl_focus_try (home appid : String) (title : Option String) :
    List (List String) :=
  (if !appid.data.isEmpty && truthyOpt title then
    (["app_id", "app-id"]).flatMap (fun k =>
      (expand_tilde_variants home (title.getD (""))).map (fun t =>
        cmdKeyTitle k appid t))
  else []) ++
  (if truthyOpt title then [cmdTitle (title.getD (""))] else []) ++
  (if !appid.data.isEmpty then (["app_id", "app-id"]).map (fun k => cmdKey k appid)
  else [])

/-- `focus_window` of `src/wloverview.py`: one full `_wlrctl_focus_try` pass
with the raw title, then — when the normalized title is truthy and differs —
a second full pass with the normalized title. -/
def focus_window_wlo (home appid title_raw title_norm : String) :
    List (List String) :=
  wlrctl_focus_try home appid (some title_raw) ++
  (if !title_norm.data.isEmpty && title_norm ≠ title_raw then
    wlrctl_focus_try home appid (some title_norm)
  else [])

/-- The `tries` list built by `focus_window` of `src/wlroverview.py`. -/
def focusTries_wlr (appid title_raw title_norm : String) :
    List (List String) :=
  [cmdKeyTitle ("app_id") appid title_raw,
   cmdKeyTitle ("app_id") appid title_norm,
   cmdTitle title_raw,
   cmdTitle title_norm,
   cmdKey ("app_id") appid]

/-- `focus_window` of `src/wlroverview.py`: the loop body
`subprocess.run(cmd); return` returns after the first iteration, so only the
first entry of `tries` is ever issued. -/
def focus_window_wlr (appid title_raw title_norm : String) :
    List (List String) :=
  (focusTries_wlr appid title_raw title_norm).take 1

/-- The cascade exactly as claim C1 states it: both key spellings with the
raw title; the same two with the normalized title when it differs; the raw
title alone; the normalized title alone when it differs; and finally both
key-only attempts. -/
def claimedFocusCascade (appid title_raw title_norm : String) :
    List (List String) :=
  [cmdKeyTitle ("app_id") appid title_raw,
   cmdKeyTitle ("app-id") appid title_raw] ++
  (if title_norm ≠ title_raw then
    [cmdKeyTitle ("app_id") appid title_norm,
     cmdKeyTitle ("app-id") appid title_norm]
  else []) ++
  [cmdTitle title_raw] ++
  (if title_norm ≠ title_raw then [cmdTitle title_norm] else []) ++
  [cmdKey ("app_id") appid, cmdKey ("app-id") appid]

/-! ### The dock reconciler (`build_dock`) -/

/-- A dock configuration entry, the fields of the JSON objects that
`build_dock` reads with `e.get(...)`: a missing key is `none`. -/
structure DockEntry where
  title : Option String
  icon : Option String
  execCmd : Option String
  appId : Option String
deriving DecidableEq

/-- Python `a or b` on optional strings: `a` when truthy, else `b`. -/
def pyOrStr (a b : Option String) : Option String :=
  if truthyOpt a then a else b

/-- The effective application id of a dock entry, as both sources compute
it: `e.get("app_id") or e.get("icon")`. -/
def effAppId (e : DockEntry) : Option String :=
  pyOrStr e.appId e.icon

/-- `app_id in running_apps` with `running_apps` a set of strings: `None`
is a member of no set of strings. -/
def optMem (a : Option String) (live : List String) : Bool :=
  match a with
  | none => false
  | some s => live.contains s

/-- `is_running` of `src/wlroverview.py` (`build_dock`):
`app_id in running_apps`. -/
def isRunning_wlr (e : DockEntry) (live : List String) : Bool :=
  optMem (effAppId e) live

/-- `is_running` of `src/wloverview.py` (`build_dock`):
`bool(app_id) and (app_id in running_apps)`. -/
def isRunning_wlo (e : DockEntry) (live : List String) : Bool :=
  truthyOpt (effAppId e) && optMem (effAppId e) live

/-- The effective appId exactly as claim C9 states it: `entry.appId` if
present (whether or not it is empty), else `entry.icon`. -/
def claimedEffAppId (e : DockEntry) : Option String :=
  match e.appId with
  | some s => some s
  | none => e.icon

/-- The `isRunning` flag exactly as claim C9 states it: the effective appId
is a member of the live appId set. -/
def claimedIsRunning (e : DockEntry) (live : List String) : Bool :=
  optMem (claimedEffAppId e) live

/-- The effective appId as the code actually computes it, stated
spec-style: `entry.appId` when present and non-empty, else `entry.icon`. -/
def amendedEffAppId (e : DockEntry) : Option String :=
  match e.appId with
  | some s => if s = "" then e.icon else some s
  | none => e.icon

/-- One dock-entry activation, abstracted to the reconciler's behavioural
contract: focus resolution on the entry's appId, launching its command, or
nothing. -/
inductive DockDispatch where
  | focus (appId : Option String)
  | launch (cmd : Option String)
  | noop
deriving DecidableEq

/-- `on_click` of `src/wlroverview.py` (`build_dock`): middle click (button
2) launches; left click (button 1) focuses the entry's appId when it is
running (a single `wlrctl toplevel focus app_id:...` invocation, then the
overlay closes) and launches otherwise; other buttons do nothing. -/
def on_click_wlr (app_id cmd : Option String) (button : ℕ)
    (is_running : Bool) : DockDispatch :=
  if button = 2 then .launch cmd
  else if button = 1 then
    if is_running then .focus app_id else .launch cmd
  else .noop

/-- `on_click` of `src/wloverview.py` (`build_dock`): every press launches
the entry's command, whatever the button and running state. -/
def on_click_wlo (cmd : Option String) (button : ℕ) (is_running : Bool) :
    DockDispatch :=
  .launch cmd

/-- The click policy exactly as claim C3 states it: secondary activation
(middle click) always launches; primary activation focuses running entries
and launches non-running ones. -/
def claimedDockDispatch (app_id cmd : Option String) (button : ℕ)
    (is_running : Bool) : DockDispatch :=
  if button = 2 then .launch cmd
  else if button = 1 then
    if is_running then .focus app_id else .launch cmd
  else .noop

/-! ### The layout solver (`MainWindow.populate`) -/

/-- `math.ceil(count / cols)` for natural `count` and positive natural
`cols`. -/
def rowsFor (count cols : ℕ) : ℕ :=
  (count + cols - 1) / cols

/-- Python `int(x)` on a rational: truncation toward zero. -/
def pyInt (q : ℚ) : ℤ :=
  if q < 0 then ⌈q⌉ else ⌊q⌋

/-- The candidate tile width computed for one `cols` value by the loop in
`populate`:
`max_w = (w*wf - (cols-1)*spacing) / cols`,
`max_h = (h*hf - (rows-1)*spacing) / rows`,
`tw = min(max_w, max_h * (4/3))`.
`wf`/`hf` are the width/height fractions (`0.85`/`0.6` in
`src/wlroverview.py`, `0.9`/`0.8` in `src/wloverview.py`), `s` is the
spacing (22 in both). -/
def candTW (wf hf s w h : ℚ) (count cols : ℕ) : ℚ :=
  min ((w * wf - ((cols : ℚ) - 1) * s) / (cols : ℚ))
    (((h * hf - ((rowsFor count cols : ℚ) - 1) * s) / (rowsFor count cols : ℚ))
      * (4 / 3))

/-- One step of the selection loop: `if tw > best_w: best_w, best_cols =
tw, cols` — the incumbent is replaced only on strict improvement. -/
def stepBest (best p : ℕ × ℚ) : ℕ × ℚ :=
  if best.2 < p.2 then p else best

/-- The candidates `(cols, tw)` enumerated by `for cols in range(1,
count + 1)`. -/
def candList (wf hf s w h : ℚ) (count : ℕ) : List (ℕ × ℚ) :=
  (List.range' 1 count).map (fun c => (c, candTW wf hf s w h count c))

/-- The `(best_cols, best_w)` pair after the loop, starting from the
initializer `best_cols, best_w = 1, 0`. -/
def bestPair (wf hf s w h : ℚ) (count : ℕ) : ℕ × ℚ :=
  (candList wf hf s w h count).foldl stepBest (1, 0)

/-- The grid geometry produced by `populate`. -/
structure LayoutGeometry where
  columns : ℕ
  rows : ℕ
  tileW : ℤ
  tileH : ℤ
deriving DecidableEq

/-- The layout solver of `populate`: no geometry when there are no windows
(the empty early return) or the window has not acquired real dimensions
(`w < 200 or h < 200`); otherwise the best pair of the selection loop with
`rows = math.ceil(count / best_cols)`, `tile_w = int(best_w)` and
`tile_h = int(tile_w * 0.75)`. -/
def solve (wf hf s : ℚ) (count : ℕ) (w h : ℚ) : Option LayoutGeometry :=
  if count = 0 then none
  else if w < 200 ∨ h < 200 then none
  else
    let bp := bestPair wf hf s w h count
    some ⟨bp.1, rowsFor count bp.1, pyInt bp.2,
      pyInt ((pyInt bp.2 : ℚ) * (3 / 4))⟩

/-- The solver with the constants of `src/wlroverview.py`:
`w * 0.85`, `h * 0.6`, spacing 22. -/
def solve_wlr (count : ℕ) (w h : ℚ) : Option LayoutGeometry :=
  solve (17 / 20) (3 / 5) 22 count w h

/-- The solver with the constants of `src/wloverview.py`:
`w * 0.9`, `h * 0.8`, spacing 22. -/
def solve_wlo (count : ℕ) (w h : ℚ) : Option LayoutGeometry :=
  solve (9 / 10) (4 / 5) 22 count w h

/-- `widthBound` exactly as the spec writes it:
`(containerWidth·widthFraction − (columns−1)·spacing) / columns`. -/
def widthBound (wf s w : ℚ) (cols : ℕ) : ℚ :=
  (w * wf - ((cols : ℚ) - 1) * s) / (cols : ℚ)

/-- `heightBound` exactly as the spec writes it:
`((containerHeight·heightFraction − (rows−1)·spacing) / rows) ·
aspectRatio`. -/
def heightBound (hf s ar h : ℚ) (rows : ℕ) : ℚ :=
  ((h * hf - ((rows : ℚ) - 1) * s) / (rows : ℚ)) * ar

/-! ### Properties of the selection fold -/

/-- The selection loop over an arbitrary index list, with candidate widths
given by `cand`. -/
def selBest (cand : ℕ → ℚ) (b : ℕ × ℚ) (ns : List ℕ) : ℕ × ℚ :=
  (ns.map (fun c => (c, cand c))).foldl stepBest b

theorem bestPair_eq_selBest (wf hf s w h : ℚ) (count : ℕ) :
    bestPair wf hf s w h count =
      selBest (candTW wf hf s w h count) (1, 0) (List.range' 1 count) := rfl

/-- The four invariants of the strict-improvement fold: the result is at
least the seed, dominates every candidate, is the seed or an improving
candidate, and on ties carries the first index of a strictly increasing
index list. -/
theorem selBest_spec (cand : ℕ → ℚ) :
    ∀ (ns : List ℕ) (b : ℕ × ℚ), List.Pairwise (· < ·) ns →
      (∀ d ∈ ns, b.1 ≤ d) →
      b.2 ≤ (selBest cand b ns).2 ∧
      (∀ c ∈ ns, cand c ≤ (selBest cand b ns).2) ∧
      (selBest cand b ns = b ∨
        ((selBest cand b ns).1 ∈ ns ∧
         cand (selBest cand b ns).1 = (selBest cand b ns).2 ∧
         b.2 < (selBest cand b ns).2)) ∧
      (∀ c ∈ ns, cand c = (selBest cand b ns).2 →
        b.2 < (selBest cand b ns).2 → (selBest cand b ns).1 ≤ c) := by
  intro ns
  induction ns with
  | nil =>
    intro b _ _
    exact ⟨le_refl _, by simp, Or.inl rfl, by simp⟩
  | cons c tl ih =>
    intro b hpw hb
    have hpw' : List.Pairwise (· < ·) tl := (List.pairwise_cons.mp hpw).2
    have hclt : ∀ d ∈ tl, c < d := (List.pairwise_cons.mp hpw).1
    by_cases hc : b.2 < cand c
    · have hrw : selBest cand b (c :: tl) = selBest cand (c, cand c) tl := by
        simp only [selBest, List.map_cons, List.foldl_cons, stepBest, hc,
          if_pos]
      have hb' : ∀ d ∈ tl, (c, cand c).1 ≤ d := fun d hd => (hclt d hd).le
      obtain ⟨iha, ihb, ihc, ihd⟩ := ih (c, cand c) hpw' hb'
      rw [hrw]
      refine ⟨le_trans hc.le iha, ?_, ?_, ?_⟩
      · intro d hd
        rcases List.mem_cons.mp hd with h | h
        · exact h ▸ iha
        · exact ihb d h
      · rcases ihc with h | ⟨h1, h2, h3⟩
        · exact Or.inr ⟨by rw [h]; exact List.mem_cons_self .., by rw [h],
            by rw [h]; exact hc⟩
        · exact Or.inr ⟨List.mem_cons_of_mem _ h1, h2, lt_trans hc h3⟩
      · intro d hd hde _
        rcases List.mem_cons.mp hd with h | h
        · subst h
          rcases ihc with h' | ⟨h1, h2, h3⟩
          · rw [h']
          · exact absurd hde (ne_of_lt h3)
        · by_cases him : (c, cand c).2 < (selBest cand (c, cand c) tl).2
          · exact ihd d h hde him
          · rcases ihc with h' | ⟨_, _, h3⟩
            · rw [h']
              exact (hclt d h).le
            · exact absurd h3 him
    · have hrw : selBest cand b (c :: tl) = selBest cand b tl := by
        simp only [selBest, List.map_cons, List.foldl_cons, stepBest, hc,
          if_neg, ite_false]
      have hb' : ∀ d ∈ tl, b.1 ≤ d := fun d hd => hb d (List.mem_cons_of_mem _ hd)
      obtain ⟨iha, ihb, ihc, ihd⟩ := ih b hpw' hb'
      rw [hrw]
      refine ⟨iha, ?_, ?_, ?_⟩
      · intro d hd
        rcases List.mem_cons.mp hd with h | h
        · exact h ▸ le_trans (not_lt.mp hc) iha
        · exact ihb d h
      · rcases ihc with h | ⟨h1, h2, h3⟩
        · exact Or.inl h
        · exact Or.inr ⟨List.mem_cons_of_mem _ h1, h2, h3⟩
      · intro d hd hde hbl
        rcases List.mem_cons.mp hd with h | h
        · subst h
          exact absurd (hde ▸ lt_of_le_of_lt (not_lt.mp hc) hbl) (lt_irrefl _)
        · exact ihd d h hde hbl

/-- Specialization of `selBest_spec` to the loop of `populate`. -/
theorem bestPair_spec (wf hf s w h : ℚ) (count : ℕ) :
    0 ≤ (bestPair wf hf s w h count).2 ∧
    (∀ c : ℕ, 1 ≤ c → c ≤ count →
      candTW wf hf s w h count c ≤ (bestPair wf hf s w h count).2) ∧
    (bestPair wf hf s w h count = (1, 0) ∨
      (1 ≤ (bestPair wf hf s w h count).1 ∧
       (bestPair wf hf s w h count).1 ≤ count ∧
       candTW wf hf s w h count (bestPair wf hf s w h count).1 =
         (bestPair wf hf s w h count).2 ∧
       0 < (bestPair wf hf s w h count).2)) ∧
    (∀ c : ℕ, 1 ≤ c → c ≤ count →
      candTW wf hf s w h count c = (bestPair wf hf s w h count).2 →
      0 < (bestPair wf hf s w h count).2 →
      (bestPair wf hf s w h count).1 ≤ c) := by
  have hpw : List.Pairwise (· < ·) (List.range' 1 count) :=
    List.pairwise_lt_range' 1 count
  have hb : ∀ d ∈ List.range' 1 count, (1, (0 : ℚ)).1 ≤ d := by
    intro d hd
    exact (List.mem_range'_1.mp hd).1
  obtain ⟨ha, hdom, hsel, hties⟩ :=
    selBest_spec (candTW wf hf s w h count) (List.range' 1 count) (1, 0) hpw hb
  rw [bestPair_eq_selBest]
  refine ⟨ha, ?_, ?_, ?_⟩
  · intro c h1 h2
    exact hdom c (List.mem_range'_1.mpr ⟨h1, by omega⟩)
  · rcases hsel with h | ⟨h1, h2, h3⟩
    · exact Or.inl h
    · have := List.mem_range'_1.mp h1
      exact Or.inr ⟨this.1, by omega, h2, h3⟩
  · intro c h1 h2 h3 h4
    exact hties c (List.mem_range'_1.mpr ⟨h1, by omega⟩) h3 h4

/-! ### Monotonicity of the candidate bounds -/

theorem rowsFor_pos (count c : ℕ) (hcount : 1 ≤ count) (hc : 1 ≤ c) :
    1 ≤ rowsFor count c := by
  rw [rowsFor, Nat.le_div_iff_mul_le (by omega)]
  omega

theorem rowsFor_mono (count c : ℕ) :
    rowsFor count c ≤ rowsFor (count + 1) c :=
  Nat.div_le_div_right (by omega)

theorem rowsFor_self (n : ℕ) (hn : 1 ≤ n) : rowsFor n n = 1 := by
  have h1 : 1 ≤ rowsFor n n := rowsFor_pos n n hn hn
  have h2 : rowsFor n n < 2 := by
    rw [rowsFor, Nat.div_lt_iff_lt_mul (by omega)]
    omega
  omega

/-- The bound `(A − (r−1)·s)/r` is non-increasing in `r ≥ 1` as long as
`A + s ≥ 0`. -/
theorem boundMono (A s r₁ r₂ : ℚ) (hAs : 0 ≤ A + s) (h1 : 1 ≤ r₁)
    (h12 : r₁ ≤ r₂) : (A - (r₂ - 1) * s) / r₂ ≤ (A - (r₁ - 1) * s) / r₁ := by
  have h1p : (0 : ℚ) < r₁ := lt_of_lt_of_le one_pos h1
  have h2p : (0 : ℚ) < r₂ := lt_of_lt_of_le h1p h12
  rw [div_le_div_iff₀ h2p h1p]
  nlinarith [mul_nonneg hAs (sub_nonneg.mpr h12)]

/-- For a fixed column count, the candidate tile width does not grow when
one more window appears. -/
theorem candTW_mono_count (wf hf s w h : ℚ) (hhf : 0 ≤ hf) (hs : 0 ≤ s)
    (hh : 0 ≤ h) (count c : ℕ) (hcount : 1 ≤ count) (hc : 1 ≤ c) :
    candTW wf hf s w h (count + 1) c ≤ candTW wf hf s w h count c := by
  unfold candTW
  refine min_le_min (le_refl _) (mul_le_mul_of_nonneg_right ?_ (by norm_num))
  have h1 : 1 ≤ rowsFor count c := rowsFor_pos count c hcount hc
  have h2 : rowsFor count c ≤ rowsFor (count + 1) c := rowsFor_mono count c
  exact boundMono (h * hf) s _ _
    (add_nonneg (mul_nonneg hh hhf) hs) (by exact_mod_cast h1)
    (by exact_mod_cast h2)

/-- The extra candidate `cols = count + 1` opened up by one more window is
no better than the old last candidate `cols = count`. -/
theorem candTW_last (wf hf s w h : ℚ) (hwf : 0 ≤ wf) (hs : 0 ≤ s)
    (hw : 0 ≤ w) (count : ℕ) (hcount : 1 ≤ count) :
    candTW wf hf s w h (count + 1) (count + 1) ≤
      candTW wf hf s w h count count := by
  unfold candTW
  rw [rowsFor_self (count + 1) (by omega), rowsFor_self count hcount]
  refine min_le_min ?_ (le_refl _)
  have := boundMono (w * wf) s (count : ℚ) ((count : ℚ) + 1)
    (add_nonneg (mul_nonneg hw hwf) hs) (by exact_mod_cast hcount)
    (by linarith)
  push_cast
  convert this using 3

/-- Monotonicity of the solved width: one more window never yields a larger
`best_w`. -/
theorem bestW_mono (wf hf s w h : ℚ) (hwf : 0 ≤ wf) (hhf : 0 ≤ hf)
    (hs : 0 ≤ s) (hw : 0 ≤ w) (hh : 0 ≤ h) (count : ℕ) (hcount : 1 ≤ count) :
    (bestPair wf hf s w h (count + 1)).2 ≤ (bestPair wf hf s w h count).2 := by
  obtain ⟨ha, hdom, _, _⟩ := bestPair_spec wf hf s w h count
  obtain ⟨_, _, hsel', _⟩ := bestPair_spec wf hf s w h (count + 1)
  rcases hsel' with h0 | ⟨h1, h2, h3, _⟩
  · rw [h0]
    exact ha
  · by_cases hle : (bestPair wf hf s w h (count + 1)).1 ≤ count
    · calc (bestPair wf hf s w h (count + 1)).2
          = candTW wf hf s w h (count + 1)
              (bestPair wf hf s w h (count + 1)).1 := h3.symm
        _ ≤ candTW wf hf s w h count (bestPair wf hf s w h (count + 1)).1 :=
            candTW_mono_count wf hf s w h hhf hs hh count _ hcount h1
        _ ≤ (bestPair wf hf s w h count).2 := hdom _ h1 hle
    · have hceq : (bestPair wf hf s w h (count + 1)).1 = count + 1 := by omega
      rw [← h3, hceq]
      calc candTW wf hf s w h (count + 1) (count + 1)
          ≤ candTW wf hf s w h count count :=
            candTW_last wf hf s w h hwf hs hw count hcount
        _ ≤ (bestPair wf hf s w h count).2 := hdom count hcount (le_refl _)

/-! ### Further layout lemmas -/

/-- `rows * cols` brackets `count`: exactly the ceiling property
`rows = ⌈count / cols⌉`. -/
theorem rowsFor_bounds (count c : ℕ) (hc : 1 ≤ c) :
    count ≤ rowsFor count c * c ∧ rowsFor count c * c < count + c := by
  have hd := Nat.div_add_mod (count + c - 1) c
  have hmod := Nat.mod_lt (count + c - 1) (show 0 < c by omega)
  rw [rowsFor, Nat.mul_comm]
  set m := c * ((count + c - 1) / c) with hm
  set r := (count + c - 1) % c with hr
  omega

/-- With the `src/wlroverview.py` constants, a 200×200 container and 49
windows, every candidate tile width is negative: for `cols ≤ 8` at least 7
rows are needed and the height bound is negative, for `cols ≥ 9` the width
bound is negative. -/
theorem candTW_neg_49 : ∀ c : ℕ, 1 ≤ c → c ≤ 49 →
    candTW (17 / 20) (3 / 5) 22 200 200 49 c < 0 := by
  intro c h1 h2
  unfold candTW
  by_cases hc : 9 ≤ c
  · refine lt_of_le_of_lt (min_le_left _ _) ?_
    apply div_neg_of_neg_of_pos
    · have h9 : (9 : ℚ) ≤ (c : ℚ) := by exact_mod_cast hc
      nlinarith
    · have : (1 : ℚ) ≤ (c : ℚ) := by exact_mod_cast h1
      linarith
  · have hr : 7 ≤ rowsFor 49 c := by
      rw [rowsFor, Nat.le_div_iff_mul_le (by omega)]
      omega
    refine lt_of_le_of_lt (min_le_right _ _) ?_
    apply mul_neg_of_neg_of_pos
    · apply div_neg_of_neg_of_pos
      · have h7 : (7 : ℚ) ≤ (rowsFor 49 c : ℚ) := by exact_mod_cast hr
        nlinarith
      · have : (1 : ℚ) ≤ (rowsFor 49 c : ℚ) := by
          exact_mod_cast rowsFor_pos 49 c (by omega) h1
        linarith
    · norm_num

/-- Evaluation of the loop for a single window in a 1000×700 container
with the `src/wlroverview.py` constants. -/
theorem bestPair_wlr_one_eval :
    bestPair (17 / 20) (3 / 5) 22 1000 700 1 = (1, 560) := by
  have hc : candTW (17 / 20) (3 / 5) 22 1000 700 1 1 = 560 := by
    norm_num [candTW, rowsFor]
  rw [bestPair, show candList (17 / 20) (3 / 5) 22 1000 700 1 =
    [(1, candTW (17 / 20) (3 / 5) 22 1000 700 1 1)] from rfl, hc]
  norm_num [stepBest]

/-- Evaluation of the solver for a single window in a 1000×700 container
with the `src/wlroverview.py` constants. -/
theorem solve_wlr_one_eval :
    solve_wlr 1 1000 700 = some ⟨1, 1, 560, 420⟩ := by
  rw [solve_wlr, solve]
  norm_num [bestPair_wlr_one_eval, rowsFor, pyInt, Int.floor_eq_iff]

/-- `int(·)` is monotone on non-negative rationals. -/
theorem pyInt_mono (a b : ℚ) (ha : 0 ≤ a) (hab : a ≤ b) :
    pyInt a ≤ pyInt b := by
  rw [pyInt, pyInt, if_neg (not_lt.mpr ha), if_neg (not_lt.mpr (ha.trans hab))]
  exact Int.floor_le_floor hab

/-! ### Claim C2 -/

/-- C2 (amended): for every candidate column count, the candidate tile
width equals `min(widthBound, heightBound)` with the spec's `widthBound`
and `heightBound` formulas and aspect ratio 4/3; the code applies no
`containerWidth·maxTileWidthFraction` cap and no `minTileWidth` clamp. -/
theorem C2_amended (wf hf s w h : ℚ) (count cols : ℕ) :
    candTW wf hf s w h count cols =
      min (widthBound wf s w cols)
        (heightBound hf s (4 / 3) h (rowsFor count cols)) := rfl

/-- C2 (counterexample): there is no non-negative clamp bound `minTileWidth`
(with any cap fraction) for which the code's candidate tile width equals
the claim's clamped formula on all solver inputs: with the
`src/wlroverview.py` constants, a 1000×1000 container and 100 windows, the
candidate for `cols = 100` is the negative value −332/25, while the claimed
formula is at least `minTileWidth ≥ 0`. -/
theorem C2_counterexample :
    ¬ ∃ minW maxF : ℚ, 0 ≤ minW ∧
      ∀ (w h : ℚ) (count cols : ℕ), 200 ≤ w → 200 ≤ h →
        1 ≤ cols → cols ≤ count →
        candTW (17 / 20) (3 / 5) 22 w h count cols =
          max minW (min (min (widthBound (17 / 20) 22 w cols)
            (heightBound (3 / 5) 22 (4 / 3) h (rowsFor count cols)))
            (w * maxF)) := by
  rintro ⟨minW, maxF, hpos, hall⟩
  have h := hall 1000 1000 100 100 (by norm_num) (by norm_num) (by norm_num)
    (by norm_num)
  have hcand : candTW (17 / 20) (3 / 5) 22 1000 1000 100 100 = -332 / 25 := by
    norm_num [candTW, rowsFor]
  rw [hcand] at h
  have h2 : minW ≤ (-332 / 25 : ℚ) := h ▸ le_max_left _ _
  linarith

/-! ### Claim C4 -/

/-- C4 (amended): the selection loop starts from the incumbent
`(columns, width) = (1, 0)` and a later candidate replaces the incumbent
only on strict improvement.  Consequently every candidate width is at most
the selected width; whenever the selected width is positive the selected
columns value carries it and ties are resolved toward the smallest columns;
but when every candidate width is ≤ 0 the loop returns `(1, 0)` unchanged,
even if some other column has a strictly larger (negative) candidate
width. -/
theorem C4_amended (wf hf s w h : ℚ) (count : ℕ) :
    (∀ c : ℕ, 1 ≤ c → c ≤ count →
      candTW wf hf s w h count c ≤ (bestPair wf hf s w h count).2) ∧
    (0 < (bestPair wf hf s w h count).2 →
      1 ≤ (bestPair wf hf s w h count).1 ∧
      (bestPair wf hf s w h count).1 ≤ count ∧
      candTW wf hf s w h count (bestPair wf hf s w h count).1 =
        (bestPair wf hf s w h count).2 ∧
      ∀ c : ℕ, 1 ≤ c → c ≤ count →
        candTW wf hf s w h count c = (bestPair wf hf s w h count).2 →
        (bestPair wf hf s w h count).1 ≤ c) ∧
    ((bestPair wf hf s w h count).2 ≤ 0 →
      bestPair wf hf s w h count = (1, 0)) := by
  obtain ⟨h0, hdom, hsel, hties⟩ := bestPair_spec wf hf s w h count
  refine ⟨hdom, ?_, ?_⟩
  · intro hpos
    rcases hsel with h | ⟨h1, h2, h3, _⟩
    · rw [h] at hpos
      exact absurd hpos (lt_irrefl _)
    · exact ⟨h1, h2, h3, fun c hc1 hc2 hce => hties c hc1 hc2 hce hpos⟩
  · intro hle
    rcases hsel with h | ⟨_, _, _, h4⟩
    · exact h
    · exact absurd h4 (not_lt.mpr hle)

/-- Witness for C4 (amended) at a single window in a 1000×700 container
with the `src/wlroverview.py` constants: the selected width 560 is positive
and is the candidate of the selected column. -/
theorem C4_amended_witness :
    0 < (bestPair (17 / 20) (3 / 5) 22 1000 700 1).2 ∧
    candTW (17 / 20) (3 / 5) 22 1000 700 1
        (bestPair (17 / 20) (3 / 5) 22 1000 700 1).1 =
      (bestPair (17 / 20) (3 / 5) 22 1000 700 1).2 :=
  ⟨by norm_num [bestPair_wlr_one_eval],
   ((C4_amended (17 / 20) (3 / 5) 22 1000 700 1).2.1
     (by norm_num [bestPair_wlr_one_eval])).2.2.1⟩

/-- C4 (counterexample): with the `src/wlroverview.py` constants, a 200×200
container and 49 windows, every candidate width is negative, so the loop
keeps the initializer and selects `columns = 1` — but the candidate width
of `columns = 9` is strictly larger than that of `columns = 1`, so the
selected columns value does not have the largest candidate tile width. -/
theorem C4_counterexample :
    (bestPair (17 / 20) (3 / 5) 22 200 200 49).1 = 1 ∧
    candTW (17 / 20) (3 / 5) 22 200 200 49 1 <
      candTW (17 / 20) (3 / 5) 22 200 200 49 9 := by
  have hsel := (bestPair_spec (17 / 20) (3 / 5) 22 200 200 49).2.2.1
  rcases hsel with h | ⟨h1, h2, h3, h4⟩
  · refine ⟨by rw [h], ?_⟩
    norm_num [candTW, rowsFor]
  · exact absurd h4 (not_lt.mpr (h3 ▸ (candTW_neg_49 _ h1 h2).le))

/-! ### Claim C5 -/

/-- C5 (amended): for `itemCount = 0` the solver returns no geometry; any
returned geometry satisfies `1 ≤ columns ≤ itemCount` and
`rows = ⌈itemCount/columns⌉` (stated by the code's formula together with
the bracketing `itemCount ≤ rows·columns < itemCount + columns` that pins
it as the ceiling); but `tileHeight` is the integer truncation
`int(tileWidth · 3/4)`, not exactly `tileWidth / aspectRatio`. -/
theorem C5_amended (wf hf s : ℚ) (count : ℕ) (w h : ℚ) :
    (count = 0 → solve wf hf s count w h = none) ∧
    (∀ g : LayoutGeometry, solve wf hf s count w h = some g →
      1 ≤ g.columns ∧ g.columns ≤ count ∧
      g.rows = rowsFor count g.columns ∧
      count ≤ g.rows * g.columns ∧ g.rows * g.columns < count + g.columns ∧
      g.tileH = pyInt ((g.tileW : ℚ) * (3 / 4))) := by
  constructor
  · intro h0
    simp [solve, h0]
  · intro g hg
    rw [solve] at hg
    split_ifs at hg with h0 hwh
    have hcount : 1 ≤ count := by omega
    obtain rfl : (⟨(bestPair wf hf s w h count).1,
        rowsFor count (bestPair wf hf s w h count).1,
        pyInt (bestPair wf hf s w h count).2,
        pyInt ((pyInt (bestPair wf hf s w h count).2 : ℚ) * (3 / 4))⟩ :
        LayoutGeometry) = g := Option.some.injEq _ _ ▸ hg
    have hsel := (bestPair_spec wf hf s w h count).2.2.1
    have hcols : 1 ≤ (bestPair wf hf s w h count).1 ∧
        (bestPair wf hf s w h count).1 ≤ count := by
      rcases hsel with h | ⟨h1, h2, _, _⟩
      · rw [h]
        exact ⟨le_refl 1, hcount⟩
      · exact ⟨h1, h2⟩
    obtain ⟨hb1, hb2⟩ := rowsFor_bounds count (bestPair wf hf s w h count).1
      hcols.1
    exact ⟨hcols.1, hcols.2, rfl, hb1, hb2, rfl⟩

/-- Witness for C5 (amended): a single window in a 1000×700 container with
the `src/wlroverview.py` constants yields geometry
`(columns, rows, tileW, tileH) = (1, 1, 560, 420)`, which satisfies every
conjunct. -/
theorem C5_amended_witness :
    solve (17 / 20) (3 / 5) 22 1 1000 700 = some ⟨1, 1, 560, 420⟩ ∧
    (1 ≤ (1 : ℕ) ∧ (1 : ℕ) ≤ 1 ∧ (1 : ℕ) = rowsFor 1 1 ∧
      1 ≤ 1 * 1 ∧ 1 * 1 < 1 + 1 ∧
      (420 : ℤ) = pyInt (((560 : ℤ) : ℚ) * (3 / 4))) :=
  ⟨solve_wlr_one_eval,
   (C5_amended (17 / 20) (3 / 5) 22 1 1000 700).2 ⟨1, 1, 560, 420⟩
     solve_wlr_one_eval⟩

/-- C5 (counterexample): with the `src/wlroverview.py` constants, one
window in a 300×700 container solves to `tileW = 255`, `tileH = 191`, and
`191 ≠ 255 · 3/4 = 191.25`: the produced tile height is not exactly
`tileWidth / aspectRatio`. -/
theorem C5_counterexample :
    solve_wlr 1 300 700 = some ⟨1, 1, 255, 191⟩ ∧
    ¬ ((191 : ℚ) = (255 : ℚ) * (3 / 4)) := by
  constructor
  · have hc : candTW (17 / 20) (3 / 5) 22 300 700 1 1 = 255 := by
      norm_num [candTW, rowsFor]
    have hbp : bestPair (17 / 20) (3 / 5) 22 300 700 1 = (1, 255) := by
      rw [bestPair, show candList (17 / 20) (3 / 5) 22 300 700 1 =
        [(1, candTW (17 / 20) (3 / 5) 22 300 700 1 1)] from rfl, hc]
      norm_num [stepBest]
    rw [solve_wlr, solve]
    norm_num [hbp, rowsFor, pyInt, Int.floor_eq_iff]
  · norm_num

/-! ### Claim C6 -/

/-- C6: for fixed container dimensions (non-negative, as all pixel sizes
are) and the fixed spacing 22, the solved tile width is non-increasing in
the item count, in both variants: both the exact loop value `best_w` and
the integer tile width `int(best_w)` at `n + 1` items are at most their
values at `n` items. -/
theorem C6_monotone :
    (∀ (w h : ℚ) (n : ℕ), 1 ≤ n → 0 ≤ w → 0 ≤ h →
      (bestPair (17 / 20) (3 / 5) 22 w h (n + 1)).2 ≤
        (bestPair (17 / 20) (3 / 5) 22 w h n).2 ∧
      pyInt (bestPair (17 / 20) (3 / 5) 22 w h (n + 1)).2 ≤
        pyInt (bestPair (17 / 20) (3 / 5) 22 w h n).2) ∧
    (∀ (w h : ℚ) (n : ℕ), 1 ≤ n → 0 ≤ w → 0 ≤ h →
      (bestPair (9 / 10) (4 / 5) 22 w h (n + 1)).2 ≤
        (bestPair (9 / 10) (4 / 5) 22 w h n).2 ∧
      pyInt (bestPair (9 / 10) (4 / 5) 22 w h (n + 1)).2 ≤
        pyInt (bestPair (9 / 10) (4 / 5) 22 w h n).2) := by
  constructor
  · intro w h n hn hw hh
    have hm := bestW_mono (17 / 20) (3 / 5) 22 w h (by norm_num) (by norm_num)
      (by norm_num) hw hh n hn
    exact ⟨hm, pyInt_mono _ _ (bestPair_spec (17 / 20) (3 / 5) 22 w h (n + 1)).1 hm⟩
  · intro w h n hn hw hh
    have hm := bestW_mono (9 / 10) (4 / 5) 22 w h (by norm_num) (by norm_num)
      (by norm_num) hw hh n hn
    exact ⟨hm, pyInt_mono _ _ (bestPair_spec (9 / 10) (4 / 5) 22 w h (n + 1)).1 hm⟩

/-- Witness for C6 at a 1000×700 container, one versus two windows, with
the `src/wlroverview.py` constants. -/
theorem C6_monotone_witness :
    (bestPair (17 / 20) (3 / 5) 22 1000 700 2).2 ≤
      (bestPair (17 / 20) (3 / 5) 22 1000 700 1).2 ∧
    pyInt (bestPair (17 / 20) (3 / 5) 22 1000 700 2).2 ≤
      pyInt (bestPair (17 / 20) (3 / 5) 22 1000 700 1).2 :=
  C6_monotone.1 1000 700 1 (by norm_num) (by norm_num) (by norm_num)

/-! ### Claim C1 -/

/-- C1 (counterexample): at `appid = app`, `rawTitle = A`,
`normalizedTitle = B` the cascade claimed by the spec differs from what
either source issues: `src/wloverview.py` runs the full block (keyed raw,
title-only raw, key-only) before any normalized-title attempt and issues
ten commands, and `src/wlroverview.py` issues only the single first
attempt. -/
theorem C1_counterexample :
    claimedFocusCascade ("app") ("A") ("B") ≠
      focus_window_wlo ("/home/u") ("app") ("A") ("B") ∧
    claimedFocusCascade ("app") ("A") ("B") ≠
      focus_window_wlr ("app") ("A") ("B") := by
  exact ⟨by decide, by decide⟩

/-- C1 (amended): for a truthy appid and truthy, tilde-free titles with
`normalizedTitle ≠ rawTitle`, `focus_window` of `src/wloverview.py` issues
one complete `_wlrctl_focus_try` block per title — both keyed attempts,
then the title alone, then both key-only attempts — first for the raw
title and then again for the normalized title (so the key-only attempts
fire twice); `focus_window` of `src/wlroverview.py` issues only the single
attempt `{app_id: appid, title: rawTitle}` because its loop returns after
the first iteration. -/
theorem C1_amended (home appid raw norm : String)
    (ha : appid.data ≠ []) (hr : raw.data ≠ []) (hn : norm.data ≠ [])
    (hne : norm ≠ raw) (hrt : raw.data.contains '~' = false)
    (hnt : norm.data.contains '~' = false) :
    focus_window_wlo home appid raw norm =
      [cmdKeyTitle ("app_id") appid raw, cmdKeyTitle ("app-id") appid raw,
       cmdTitle raw, cmdKey ("app_id") appid, cmdKey ("app-id") appid,
       cmdKeyTitle ("app_id") appid norm, cmdKeyTitle ("app-id") appid norm,
       cmdTitle norm, cmdKey ("app_id") appid, cmdKey ("app-id") appid] ∧
    focus_window_wlr appid raw norm = [cmdKeyTitle ("app_id") appid raw] := by
  constructor
  · have h1 : ¬ '~' ∈ raw.data := by simpa using hrt
    have h2 : ¬ '~' ∈ norm.data := by simpa using hnt
    simp [focus_window_wlo, wlrctl_focus_try, expand_tilde_variants, truthyOpt,
      List.isEmpty_iff, ha, hr, hn, hne, h1, h2]
  · rfl

/-- Witness for C1 (amended) at concrete handle
`(app, A, B)` with home directory `/home/u`. -/
theorem C1_amended_witness :
    focus_window_wlo ("/home/u") ("app") ("A") ("B") =
      [cmdKeyTitle ("app_id") ("app") ("A"), cmdKeyTitle ("app-id") ("app") ("A"),
       cmdTitle ("A"), cmdKey ("app_id") ("app"), cmdKey ("app-id") ("app"),
       cmdKeyTitle ("app_id") ("app") ("B"), cmdKeyTitle ("app-id") ("app") ("B"),
       cmdTitle ("B"), cmdKey ("app_id") ("app"), cmdKey ("app-id") ("app")] ∧
    focus_window_wlr ("app") ("A") ("B") =
      [cmdKeyTitle ("app_id") ("app") ("A")] :=
  C1_amended ("/home/u") ("app") ("A") ("B") (by decide) (by decide)
    (by decide) (by decide) (by decide) (by decide)

/-! ### Claim C3 -/

/-- C3 (counterexample): a primary activation (button 1) on a running dock
entry in `src/wloverview.py` launches a new instance instead of delegating
to focus resolution. -/
theorem C3_counterexample :
    on_click_wlo (some ("app --flag")) 1 true =
      DockDispatch.launch (some ("app --flag")) ∧
    claimedDockDispatch (some ("org.app")) (some ("app --flag")) 1 true =
      DockDispatch.focus (some ("org.app")) := by
  exact ⟨rfl, rfl⟩

/-- C3 (amended): in `src/wlroverview.py` the claimed click policy holds —
middle click always launches, left click focuses a running entry's appId
and launches a non-running one, other buttons do nothing; but in
`src/wloverview.py` every dock press launches a new instance, regardless
of button and running state. -/
theorem C3_amended :
    (∀ (a cmd : Option String) (button : ℕ) (running : Bool),
      on_click_wlr a cmd button running =
        claimedDockDispatch a cmd button running) ∧
    (∀ (cmd : Option String) (button : ℕ) (running : Bool),
      on_click_wlo cmd button running = DockDispatch.launch cmd) := by
  exact ⟨fun a cmd button running => rfl, fun cmd button running => rfl⟩

/-! ### Claim C9 -/

/-- A string's character list is empty exactly when it is the empty
string. -/
theorem data_nil_iff (s : String) : s.data = [] ↔ s = "" := by
  constructor
  · intro h
    exact String.ext h
  · intro h
    subst h
    rfl

/-- C9 (counterexample): a dock entry whose `app_id` key is present but
empty, with icon `x`, against live set `{x}`: the code falls back to the
icon (Python `or` is truthiness-based) and reports running, while the
claim's effective appId is the present-but-empty `app_id`, which is not in
the live set. -/
theorem C9_counterexample :
    isRunning_wlr ⟨none, some ("x"), none, some ("")⟩ (["x"]) = true ∧
    claimedIsRunning ⟨none, some ("x"), none, some ("")⟩ (["x"]) = false := by
  exact ⟨by decide, by decide⟩

/-- C9 (amended): the effective appId is `entry.appId` when present *and
non-empty*, else `entry.icon`; `isRunning` in `src/wlroverview.py` holds
iff that effective appId exists and is a member of the live set, and in
`src/wloverview.py` additionally only if it is non-empty. -/
theorem C9_amended (e : DockEntry) (live : List String) :
    (isRunning_wlr e live = true ↔
      ∃ s, amendedEffAppId e = some s ∧ s ∈ live) ∧
    (isRunning_wlo e live = true ↔
      ∃ s, amendedEffAppId e = some s ∧ s ∈ live ∧ ¬ s = "") := by
  obtain ⟨t, i, x, a⟩ := e
  have heff : effAppId ⟨t, i, x, a⟩ = amendedEffAppId ⟨t, i, x, a⟩ := by
    cases a with
    | none => rfl
    | some s =>
      by_cases hs : s = ""
      · subst hs
        simp [effAppId, pyOrStr, truthyOpt, amendedEffAppId]
      · simp [effAppId, pyOrStr, truthyOpt, amendedEffAppId, hs,
          List.isEmpty_iff, data_nil_iff]
  constructor
  · rw [isRunning_wlr, heff]
    cases amendedEffAppId ⟨t, i, x, a⟩ with
    | none => simp [optMem]
    | some s => simp [optMem]
  · rw [isRunning_wlo, heff]
    cases amendedEffAppId ⟨t, i, x, a⟩ with
    | none => simp [optMem, truthyOpt]
    | some s =>
      simp [optMem, truthyOpt, List.isEmpty_iff, data_nil_iff]
      tauto

/-- Witness for C9 (amended) at the spec's own example: entry with appId
`org.app` against live set `{org.app}`. -/
theorem C9_amended_witness :
    (isRunning_wlr ⟨none, some ("icon"), none, some ("org.app")⟩
        (["org.app"]) = true ↔
      ∃ s, amendedEffAppId ⟨none, some ("icon"), none, some ("org.app")⟩ =
        some s ∧ s ∈ (["org.app"] : List String)) ∧
    (isRunning_wlo ⟨none, some ("icon"), none, some ("org.app")⟩
        (["org.app"]) = true ↔
      ∃ s, amendedEffAppId ⟨none, some ("icon"), none, some ("org.app")⟩ =
        some s ∧ s ∈ (["org.app"] : List String) ∧ ¬ s = "") :=
  C9_amended ⟨none, some ("icon"), none, some ("org.app")⟩ (["org.app"])

/-! ### Claim C10 -/

/-- C10: every window emitted by `get_windows` of `src/wlroverview.py` has
a title whose lowercasing differs from `wloverview` — so an enumerated
line whose title lowercases to `wloverview` is excluded even when its
appid differs from the overview's own — and an appid different from
`org.broomlabs.wloverview`. -/
theorem C10_excludes (nfkc : String → String) (lines : List String) :
    ∀ e ∈ get_windows_wlr nfkc lines,
      pyLower e.2.1 ≠ "wloverview" ∧ e.1 ≠ "org.broomlabs.wloverview" := by
  intro e he
  simp only [get_windows_wlr, List.mem_filterMap] at he
  obtain ⟨line, _, hsome⟩ := he
  split_ifs at hsome with h1 h2
  rw [Option.some.injEq] at hsome
  subst hsome
  simp only [Bool.or_eq_true, decide_eq_true_eq, not_or] at h2
  exact ⟨h2.2, h2.1⟩

/-- Witness for C10 on the enumeration line `firefox:Mozilla Firefox`. -/
theorem C10_excludes_witness :
    pyLower ("Mozilla Firefox") ≠ "wloverview" ∧
    ("firefox" : String) ≠ "org.broomlabs.wloverview" :=
  C10_excludes nfkcFragment (["firefox:Mozilla Firefox"])
    ("firefox", "Mozilla Firefox", "Mozilla Firefox") (by decide)

/-! ### Normalizer lemmas -/

theorem translateChar_cases (c : Char) :
    translateChar c = '-' ∨ translateChar c = c := by
  rw [translateChar]
  split
  · exact Or.inl rfl
  · exact Or.inr rfl

theorem translateChar_not_dash (c : Char) :
    isDashVariant (translateChar c) = false := by
  rw [translateChar]
  split
  · decide
  · next h => simpa using h

theorem translateChar_eq_self (c : Char) (h : isDashVariant c = false) :
    translateChar c = c := by
  simp [translateChar, h]

theorem translateChar_eq_a (c : Char) (h : translateChar c = 'a') :
    c = 'a' := by
  rcases translateChar_cases c with h' | h'
  · rw [h'] at h
    exact absurd h (by decide)
  · rw [h'] at h
    exact h

theorem translateChar_eq_acute (c : Char) (h : translateChar c = '́') :
    c = '́' := by
  rcases translateChar_cases c with h' | h'
  · rw [h'] at h
    exact absurd h (by decide)
  · rw [h'] at h
    exact h

theorem map_id_of_eq {α : Type} (f : α → α) :
    ∀ l : List α, (∀ c ∈ l, f c = c) → l.map f = l := by
  intro l h
  induction l with
  | nil => rfl
  | cons c cs ih =>
    simp only [List.map_cons, h c (by simp)]
    rw [ih (fun x hx => h x (by simp [hx]))]

/-- No immediately adjacent composable pair `'a'`, U+0301. -/
def noComposePair (l : List Char) : Prop :=
  List.Chain' (fun a b => ¬(a = 'a' ∧ b = '́')) l

theorem composePairs_cons_ne (c0 : Char) (rest : List Char)
    (h : ∀ t : List Char, c0 = 'a' → rest = '́' :: t → False) :
    composePairs (c0 :: rest) = c0 :: composePairs rest := by
  rw [composePairs]
  exact h

theorem composePairs_subset : ∀ l : List Char, ∀ c ∈ composePairs l,
    c ∈ l ∨ c = 'á' := by
  intro l
  induction l using composePairs.induct with
  | case1 =>
    simp [composePairs]
  | case2 rest ih =>
    intro c hc
    rw [composePairs] at hc
    rcases List.mem_cons.mp hc with h | h
    · exact Or.inr h
    · rcases ih c h with h' | h'
      · exact Or.inl (by simp [h'])
      · exact Or.inr h'
  | case3 c0 rest hne ih =>
    intro c hc
    rw [composePairs_cons_ne c0 rest hne] at hc
    rcases List.mem_cons.mp hc with h | h
    · exact Or.inl (by simp [h])
    · rcases ih c h with h' | h'
      · exact Or.inl (List.mem_cons_of_mem _ h')
      · exact Or.inr h'

theorem composePairs_head (c0 : Char) (t : List Char) :
    (composePairs (c0 :: t)).head? = some c0 ∨
      (composePairs (c0 :: t)).head? = some 'á' := by
  by_cases h : c0 = 'a' ∧ ∃ t', t = '́' :: t'
  · obtain ⟨rfl, t', rfl⟩ := h
    rw [composePairs]
    exact Or.inr rfl
  · push_neg at h
    refine Or.inl ?_
    rw [composePairs_cons_ne c0 t (fun t' h1 h2 => h h1 t' h2)]
    rfl

theorem composePairs_noPair : ∀ l : List Char,
    noComposePair (composePairs l) := by
  intro l
  induction l using composePairs.induct with
  | case1 =>
    simp [composePairs, noComposePair]
  | case2 rest ih =>
    rw [composePairs, noComposePair, List.chain'_cons']
    refine ⟨?_, ih⟩
    intro y _ hcon
    exact absurd hcon.1 (by decide)
  | case3 c0 rest hne ih =>
    rw [composePairs_cons_ne c0 rest hne, noComposePair, List.chain'_cons']
    refine ⟨?_, ih⟩
    intro y hy hcon
    obtain ⟨rfl, rfl⟩ := hcon
    cases rest with
    | nil =>
      simp [composePairs] at hy
    | cons d t =>
      rcases composePairs_head d t with h | h
      · rw [h] at hy
        simp only [Option.mem_def, Option.some.injEq] at hy
        exact hne t rfl (by rw [hy])
      · rw [h] at hy
        simp only [Option.mem_def, Option.some.injEq] at hy
        exact absurd hy (by decide)

theorem composePairs_of_noPair : ∀ l : List Char,
    noComposePair l → composePairs l = l := by
  intro l
  induction l using composePairs.induct with
  | case1 =>
    intro _
    rfl
  | case2 rest ih =>
    intro h
    exfalso
    rw [noComposePair, List.chain'_cons'] at h
    exact (h.1 '́' (by simp)) ⟨rfl, rfl⟩
  | case3 c0 rest hne ih =>
    intro h
    rw [noComposePair, List.chain'_cons'] at h
    rw [composePairs_cons_ne c0 rest hne, ih h.2]

theorem noPair_map_translate (l : List Char) (h : noComposePair l) :
    noComposePair (l.map translateChar) := by
  rw [noComposePair, List.chain'_map]
  refine List.Chain'.imp ?_ h
  intro a b hab hcon
  exact hab ⟨translateChar_eq_a a hcon.1, translateChar_eq_acute b hcon.2⟩

theorem wordsAux_chain (R : Char → Char → Prop) :
    ∀ (l cur : List Char), List.Chain' R (cur.reverse ++ l) →
      ∀ w ∈ wordsAux cur l, List.Chain' R w := by
  intro l
  induction l with
  | nil =>
    intro cur h w hw
    rw [wordsAux] at hw
    split at hw
    · simp at hw
    · simp only [List.mem_singleton] at hw
      subst hw
      simpa using h
  | cons d ds ih =>
    intro cur h w hw
    rw [wordsAux] at hw
    by_cases hd : isPyWhitespace d
    · rw [if_pos hd] at hw
      by_cases hcur : cur.isEmpty
      · rw [if_pos hcur] at hw
        have hcur' : cur = [] := List.isEmpty_iff.mp hcur
        subst hcur'
        exact ih [] (by simpa using (List.Chain'.tail (by simpa using h))) w hw
      · rw [if_neg hcur] at hw
        have hsplit := List.chain'_append.mp h
        rcases List.mem_cons.mp hw with rfl | hw'
        · exact hsplit.1
        · exact ih [] (by simpa using hsplit.2.1.tail) w hw'
    · rw [if_neg hd] at hw
      refine ih (d :: cur) ?_ w hw
      simpa [List.append_assoc] using h

theorem joinSpace_cons_cons (w w2 : List Char) (ws2 : List (List Char)) :
    joinSpace (w :: w2 :: ws2) = w ++ ' ' :: joinSpace (w2 :: ws2) := by
  rw [joinSpace]
  exact fun h => List.noConfusion h

theorem joinSpace_chain (R : Char → Char → Prop)
    (hsp1 : ∀ x, R x ' ') (hsp2 : ∀ y, R ' ' y) :
    ∀ ws : List (List Char), (∀ w ∈ ws, List.Chain' R w) →
      List.Chain' R (joinSpace ws) := by
  intro ws
  induction ws with
  | nil =>
    intro _
    simp [joinSpace]
  | cons w ws ih =>
    intro h
    cases ws with
    | nil =>
      simpa [joinSpace] using h w (by simp)
    | cons w2 ws2 =>
      rw [joinSpace_cons_cons, List.chain'_append]
      refine ⟨h w (by simp), ?_, ?_⟩
      · rw [List.chain'_cons']
        exact ⟨fun y _ => hsp2 y, ih (fun u hu => h u (by simp [hu]))⟩
      · intro x _ y hy
        simp only [List.head?_cons, Option.mem_def, Option.some.injEq] at hy
        subst hy
        exact hsp1 x

theorem wordsAux_props :
    ∀ (l cur : List Char), (∀ c ∈ cur, isPyWhitespace c = false) →
      ∀ w ∈ wordsAux cur l, w ≠ [] ∧ ∀ c ∈ w, isPyWhitespace c = false := by
  intro l
  induction l with
  | nil =>
    intro cur hcur w hw
    rw [wordsAux] at hw
    split at hw
    · simp at hw
    · next hne =>
      simp only [List.mem_singleton] at hw
      subst hw
      refine ⟨by simpa [List.isEmpty_iff] using hne, ?_⟩
      intro c hc
      exact hcur c (List.mem_reverse.mp hc)
  | cons d ds ih =>
    intro cur hcur w hw
    rw [wordsAux] at hw
    by_cases hd : isPyWhitespace d
    · rw [if_pos hd] at hw
      by_cases hce : cur.isEmpty
      · rw [if_pos hce] at hw
        exact ih [] (by simp) w hw
      · rw [if_neg hce] at hw
        rcases List.mem_cons.mp hw with rfl | hw'
        · refine ⟨by simpa [List.isEmpty_iff] using hce, ?_⟩
          intro c hc
          exact hcur c (List.mem_reverse.mp hc)
        · exact ih [] (by simp) w hw'
    · rw [if_neg hd] at hw
      refine ih (d :: cur) ?_ w hw
      intro c hc
      rcases List.mem_cons.mp hc with rfl | hc'
      · simpa using hd
      · exact hcur c hc'

theorem wordsAux_chars :
    ∀ (l cur w : List Char), w ∈ wordsAux cur l →
      ∀ c ∈ w, c ∈ cur ∨ c ∈ l := by
  intro l
  induction l with
  | nil =>
    intro cur w hw c hc
    rw [wordsAux] at hw
    split at hw
    · simp at hw
    · simp only [List.mem_singleton] at hw
      subst hw
      exact Or.inl (List.mem_reverse.mp hc)
  | cons d ds ih =>
    intro cur w hw c hc
    rw [wordsAux] at hw
    by_cases hd : isPyWhitespace d
    · rw [if_pos hd] at hw
      by_cases hce : cur.isEmpty
      · rw [if_pos hce] at hw
        rcases ih [] w hw c hc with h | h
        · simp at h
        · exact Or.inr (List.mem_cons_of_mem _ h)
      · rw [if_neg hce] at hw
        rcases List.mem_cons.mp hw with rfl | hw'
        · exact Or.inl (List.mem_reverse.mp hc)
        · rcases ih [] w hw' c hc with h | h
          · simp at h
          · exact Or.inr (List.mem_cons_of_mem _ h)
    · rw [if_neg hd] at hw
      rcases ih (d :: cur) w hw c hc with h | h
      · rcases List.mem_cons.mp h with rfl | h'
        · exact Or.inr (List.mem_cons_self _ _)
        · exact Or.inl h'
      · exact Or.inr (List.mem_cons_of_mem _ h)

theorem joinSpace_chars :
    ∀ (ws : List (List Char)) (c : Char), c ∈ joinSpace ws →
      c = ' ' ∨ ∃ w ∈ ws, c ∈ w := by
  intro ws
  induction ws with
  | nil =>
    intro c hc
    simp [joinSpace] at hc
  | cons w ws ih =>
    intro c hc
    cases ws with
    | nil =>
      exact Or.inr ⟨w, by simp, by simpa [joinSpace] using hc⟩
    | cons w2 ws2 =>
      rw [joinSpace_cons_cons] at hc
      rcases List.mem_append.mp hc with h | h
      · exact Or.inr ⟨w, by simp, h⟩
      · rcases List.mem_cons.mp h with rfl | h'
        · exact Or.inl rfl
        · rcases ih c h' with h'' | ⟨u, hu, hcu⟩
          · exact Or.inl h''
          · exact Or.inr ⟨u, by simp [hu], hcu⟩

theorem wordsAux_append_word :
    ∀ (w cur rest : List Char), (∀ c ∈ w, isPyWhitespace c = false) →
      wordsAux cur (w ++ rest) = wordsAux (w.reverse ++ cur) rest := by
  intro w
  induction w with
  | nil =>
    intro cur rest _
    simp
  | cons c w' ih =>
    intro cur rest h
    have hc : isPyWhitespace c = false := h c (by simp)
    rw [List.cons_append, wordsAux, if_neg (by simp [hc])]
    rw [ih (c :: cur) rest (fun x hx => h x (by simp [hx]))]
    simp [List.append_assoc]

theorem pyWords_joinSpace :
    ∀ ws : List (List Char),
      (∀ w ∈ ws, w ≠ [] ∧ ∀ c ∈ w, isPyWhitespace c = false) →
      pyWords (joinSpace ws) = ws := by
  intro ws
  induction ws with
  | nil =>
    intro _
    rfl
  | cons w ws ih =>
    intro h
    obtain ⟨hne, hch⟩ := h w (by simp)
    cases ws with
    | nil =>
      show wordsAux [] (joinSpace [w]) = [w]
      rw [show joinSpace [w] = w from rfl]
      rw [show (w : List Char) = w ++ [] by simp]
      rw [wordsAux_append_word w [] [] hch]
      rw [wordsAux]
      rw [if_neg (by simp [List.isEmpty_iff, hne])]
      simp
    | cons w2 ws2 =>
      show wordsAux [] (joinSpace (w :: w2 :: ws2)) = w :: w2 :: ws2
      rw [joinSpace_cons_cons]
      rw [wordsAux_append_word w [] _ hch]
      rw [wordsAux, if_pos (by decide)]
      rw [if_neg (by simp [List.isEmpty_iff, hne])]
      rw [show (w.reverse ++ [] : List Char).reverse = w by simp]
      exact congrArg (w :: ·) (ih (fun u hu => h u (by simp [hu])))

theorem collapseWs_idem (l : List Char) :
    collapseWs (collapseWs l) = collapseWs l := by
  show joinSpace (pyWords (joinSpace (pyWords l))) = collapseWs l
  rw [pyWords_joinSpace (pyWords l) (wordsAux_props l [] (by simp))]
  rfl

theorem collapseWs_chain (R : Char → Char → Prop)
    (hsp1 : ∀ x, R x ' ') (hsp2 : ∀ y, R ' ' y) (l : List Char)
    (h : List.Chain' R l) : List.Chain' R (collapseWs l) :=
  joinSpace_chain R hsp1 hsp2 (pyWords l)
    (fun w hw => wordsAux_chain R l [] (by simpa using h) w hw)

theorem collapseWs_chars (l : List Char) :
    ∀ c ∈ collapseWs l, c = ' ' ∨ c ∈ l := by
  intro c hc
  rcases joinSpace_chars (pyWords l) c hc with h | ⟨w, hw, hcw⟩
  · exact Or.inl h
  · rcases wordsAux_chars l [] w hw c hcw with h | h
    · simp at h
    · exact Or.inr h

theorem normalize_data_clean (nfkc : String → String) (s : String) :
    ∀ c ∈ (normalize_title nfkc s).data,
      isZeroWidth c = false ∧ isDashVariant c = false := by
  intro c hc
  rw [normalize_title] at hc
  split_ifs at hc with h
  · rw [h] at hc
    have : ("" : String).data = [] := rfl
    rw [this] at hc
    simp at hc
  · rcases collapseWs_chars _ c hc with rfl | hm
    · exact ⟨by decide, by decide⟩
    · obtain ⟨d, hd, rfl⟩ := List.mem_map.mp hm
      refine ⟨?_, translateChar_not_dash d⟩
      rcases translateChar_cases d with h' | h'
      · rw [h']
        decide
      · rw [h']
        have := (List.mem_filter.mp hd).2
        simpa using this

/-- C7 (amended): the title normalizer is idempotent on every string that
contains no zero-width code point.  (In general it is not: stripping a
zero-width character can place a combining mark directly after its base
letter, so a second pass composes what the first left alone.)  Stated over
the NFKC fragment `nfkcFragment`. -/
theorem C7_amended (s : String)
    (hzw : ∀ c ∈ s.data, isZeroWidth c = false) :
    normalize_title nfkcFragment (normalize_title nfkcFragment s) =
      normalize_title nfkcFragment s := by
  by_cases hs : s = ""
  · subst hs
    rfl
  · set Z := normalize_title nfkcFragment s with hZdef
    by_cases hz : Z = ""
    · rw [hz]
      rfl
    · have hD2 : ∀ c ∈ Z.data,
          isZeroWidth c = false ∧ isDashVariant c = false :=
        normalize_data_clean nfkcFragment s
      have hfe : List.filter (fun c => !isZeroWidth c)
          (composePairs s.data) = composePairs s.data := by
        apply List.filter_eq_self.mpr
        intro c hc
        rcases composePairs_subset s.data c hc with h | h
        · simp [hzw c h]
        · subst h
          decide
      have hZdata : Z.data =
          collapseWs (List.map translateChar (composePairs s.data)) := by
        rw [hZdef, normalize_title, if_neg hs]
        show collapseWs (List.map translateChar
          (List.filter (fun c => !isZeroWidth c) (composePairs s.data))) = _
        rw [hfe]
      have hD1 : noComposePair Z.data := by
        rw [hZdata]
        exact collapseWs_chain _
          (fun x => by rintro ⟨-, hx⟩; exact absurd hx (by decide))
          (fun y => by rintro ⟨hy, -⟩; exact absurd hy (by decide)) _
          (noPair_map_translate _ (composePairs_noPair s.data))
      have hD4 : collapseWs Z.data = Z.data := by
        rw [hZdata]
        exact collapseWs_idem _
      rw [normalize_title, if_neg hz]
      show String.mk (collapseWs (List.map translateChar
        (List.filter (fun c => !isZeroWidth c) (composePairs Z.data)))) = Z
      rw [composePairs_of_noPair _ hD1]
      rw [List.filter_eq_self.mpr (fun c hc => by simp [(hD2 c hc).1])]
      rw [map_id_of_eq translateChar _
        (fun c hc => translateChar_eq_self c (hD2 c hc).2)]
      rw [hD4]

/-- C7 (counterexample): on the string `a U+200D U+0301`, NFKC leaves the
blocked pair alone, the zero-width strip then puts U+0301 directly after
`a`, and a second normalize pass composes them to `á`:
`normalize(normalize(s)) ≠ normalize(s)`. -/
theorem C7_counterexample :
    normalize_title nfkcFragment
        (normalize_title nfkcFragment ("a‍́")) ≠
      normalize_title nfkcFragment ("a‍́") := by
  decide

/-- Witness for C7 (amended) on a zero-width-free title. -/
theorem C7_amended_witness :
    normalize_title nfkcFragment
        (normalize_title nfkcFragment ("Firefox—Private")) =
      normalize_title nfkcFragment ("Firefox—Private") :=
  C7_amended ("Firefox—Private") (by decide)

/-- C8: for every string, the normalizer's output contains no zero-width
code point (U+200B, U+200C, U+200D, U+FEFF) and none of the non-ASCII dash
variants of the translation table — for any NFKC function whatsoever,
since the strip runs after NFKC and the later stages introduce only `-`
and the space. -/
theorem C8_clean (nfkc : String → String) (s : String) :
    ∀ c ∈ (normalize_title nfkc s).data,
      isZeroWidth c = false ∧ isDashVariant c = false :=
  normalize_data_clean nfkc s

/-- Witness for C8 at the spec's own example `Firefox—Private\u200B`. -/
theorem C8_clean_witness :
    isZeroWidth 'F' = false ∧ isDashVariant 'F' = false :=
  C8_clean nfkcFragment ("Firefox—Private​") 'F' (by decide)
